import Mathlib

/-!
Verification development for floneum's structured-output grammar compiler
(kalosm parse/schema derives) and the remote OpenAI-compatible model wrapper.
-/

namespace Floneum

/-- Character classes appearing in compiled grammars. -/
inductive CC where
  | single (c : Char)
  | nonQuote
deriving DecidableEq, Repr

/-- Membership of a character in a class. -/
def CC.memb : CC → Char → Bool
  | .single a, c => c == a
  | .nonQuote, c => c != '\"'

/-- Grammar expressions for compiled incremental parsers.  A parser state is
itself such an expression (the Brzozowski derivative of the original grammar by
the consumed bytes): ambiguity between still-viable alternatives is carried by
`alt`, matching the candidate-branch set the incremental engine keeps live. -/
inductive G where
  | fail
  | eps
  | cls (cc : CC)
  | alt (a b : G)
  | cat (a b : G)
  | star (a : G)
deriving DecidableEq, Repr

namespace G

/-- Does the expression accept the empty string? -/
def nullable : G → Bool
  | .fail => false
  | .eps => true
  | .cls _ => false
  | .alt a b => a.nullable || b.nullable
  | .cat a b => a.nullable && b.nullable
  | .star _ => true

/-- Structural emptiness check: `true` means the expression accepts nothing. -/
def isFail : G → Bool
  | .fail => true
  | .eps => false
  | .cls _ => false
  | .alt a b => a.isFail && b.isFail
  | .cat a b => a.isFail || b.isFail
  | .star _ => false

/-- Is the expression literally `eps`? -/
def isEps : G → Bool
  | .eps => true
  | _ => false

/-- Simplifying alternation. -/
def calt (a b : G) : G :=
  if a.isFail then b else if b.isFail then a else .alt a b

/-- Simplifying concatenation. -/
def ccat (a b : G) : G :=
  if a.isFail || b.isFail then .fail
  else if a.isEps then b
  else if b.isEps then a
  else .cat a b

/-- Brzozowski derivative: the grammar of what may follow after consuming `c`. -/
def deriv : G → Char → G
  | .fail, _ => .fail
  | .eps, _ => .fail
  | .cls cc, c => if cc.memb c then .eps else .fail
  | .alt a b, c => calt (a.deriv c) (b.deriv c)
  | .cat a b, c =>
    if a.nullable then calt (ccat (a.deriv c) b) (b.deriv c)
    else ccat (a.deriv c) b
  | .star a, c => ccat (a.deriv c) (.star a)

/-- Can the expression still consume at least one further character? -/
def canExtend : G → Bool
  | .fail => false
  | .eps => false
  | .cls _ => true
  | .alt a b => a.canExtend || b.canExtend
  | .cat a b => (a.canExtend && !b.isFail) || (a.nullable && b.canExtend)
  | .star a => a.canExtend

end G

/-- Iterated derivative over a byte sequence. -/
def derivs (g : G) (s : List Char) : G :=
  s.foldl G.deriv g

/-- Kleene iteration of a language. -/
inductive StarL (P : List Char → Prop) : List Char → Prop where
  | nil : StarL P []
  | app (u v : List Char) : P u → StarL P v → StarL P (u ++ v)

/-- The language denoted by a grammar expression. -/
def Lang : G → List Char → Prop
  | .fail => fun _ => False
  | .eps => fun s => s = []
  | .cls cc => fun s => ∃ c, s = [c] ∧ cc.memb c = true
  | .alt a b => fun s => Lang a s ∨ Lang b s
  | .cat a b => fun s => ∃ u v, s = u ++ v ∧ Lang a u ∧ Lang b v
  | .star a => StarL (Lang a)

theorem isFail_sound {g : G} (h : g.isFail = true) : ∀ s, ¬ Lang g s := by
  induction g with
  | fail => intro s hs; exact hs
  | eps => simp [G.isFail] at h
  | cls cc => simp [G.isFail] at h
  | alt a b iha ihb =>
    intro s hs
    simp [G.isFail] at h
    cases hs with
    | inl hl => exact iha h.1 s hl
    | inr hr => exact ihb h.2 s hr
  | cat a b iha ihb =>
    intro s hs
    simp [G.isFail] at h
    obtain ⟨u, v, _, hu, hv⟩ := hs
    cases h with
    | inl hl => exact iha hl u hu
    | inr hr => exact ihb hr v hv
  | star a iha => simp [G.isFail] at h

theorem nullable_iff {g : G} : g.nullable = true ↔ Lang g [] := by
  induction g with
  | fail => simp [G.nullable, Lang]
  | eps => simp [G.nullable, Lang]
  | cls cc => simp [G.nullable, Lang]
  | alt a b iha ihb => simp [G.nullable, Lang, iha, ihb]
  | cat a b iha ihb =>
    simp only [G.nullable, Lang, Bool.and_eq_true, iha, ihb]
    constructor
    · rintro ⟨ha, hb⟩; exact ⟨[], [], rfl, ha, hb⟩
    · rintro ⟨u, v, huv, hu, hv⟩
      have hu0 : u = [] := by
        cases u with
        | nil => rfl
        | cons x xs => simp at huv
      subst hu0
      have hv0 : v = [] := by simpa using huv
      subst hv0
      exact ⟨hu, hv⟩
  | star a iha =>
    simp only [G.nullable, Lang]
    exact ⟨fun _ => StarL.nil, fun _ => trivial⟩

theorem isFail_not_nullable {g : G} (h : g.isFail = true) : g.nullable = false := by
  by_contra hn
  have hn' : g.nullable = true := by
    cases hng : g.nullable with
    | false => exact absurd hng hn
    | true => rfl
  exact isFail_sound h [] (nullable_iff.mp hn')

theorem lang_isEps {g : G} (h : g.isEps = true) : g = .eps := by
  cases g <;> simp [G.isEps] at h ⊢

theorem lang_calt {a b : G} {s : List Char} :
    Lang (G.calt a b) s ↔ (Lang a s ∨ Lang b s) := by
  unfold G.calt
  by_cases ha : a.isFail = true
  · simp only [ha, if_pos rfl]
    simp only [if_true]
    constructor
    · exact fun h => Or.inr h
    · rintro (h | h)
      · exact absurd h (isFail_sound ha s)
      · exact h
  · have ha' : a.isFail = false := by
      cases hx : a.isFail with
      | false => rfl
      | true => exact absurd hx ha
    simp only [ha']
    by_cases hb : b.isFail = true
    · simp only [hb, if_false, if_true]
      constructor
      · exact fun h => Or.inl h
      · rintro (h | h)
        · exact h
        · exact absurd h (isFail_sound hb s)
    · have hb' : b.isFail = false := by
        cases hx : b.isFail with
        | false => rfl
        | true => exact absurd hx hb
      simp only [hb', if_false]
      exact Iff.rfl

theorem lang_ccat {a b : G} {s : List Char} :
    Lang (G.ccat a b) s ↔ Lang (G.cat a b) s := by
  unfold G.ccat
  by_cases hfa : a.isFail = true
  · simp only [hfa, Bool.true_or, if_true]
    constructor
    · intro h; exact absurd h (fun hx => hx)
    · rintro ⟨u, v, _, hu, _⟩
      exact absurd hu (isFail_sound hfa u)
  · have hfa' : a.isFail = false := Bool.eq_false_iff.mpr hfa
    by_cases hfb : b.isFail = true
    · simp only [hfa', hfb, Bool.or_true, if_true]
      constructor
      · intro h; exact absurd h (fun hx => hx)
      · rintro ⟨u, v, _, _, hv⟩
        exact absurd hv (isFail_sound hfb v)
    · have hfb' : b.isFail = false := Bool.eq_false_iff.mpr hfb
      simp only [hfa', hfb', Bool.or_self, Bool.false_or, if_false]
      by_cases hea : a.isEps = true
      · have : a = .eps := lang_isEps hea
        subst this
        simp only [hea, if_true]
        constructor
        · intro h; exact ⟨[], s, rfl, rfl, h⟩
        · rintro ⟨u, v, huv, hu, hv⟩
          have hu0 : u = [] := hu
          subst hu0
          simpa [huv] using hv
      · have hea' : a.isEps = false := Bool.eq_false_iff.mpr hea
        simp only [hea', if_false]
        by_cases heb : b.isEps = true
        · have : b = .eps := lang_isEps heb
          subst this
          simp only [heb, if_true]
          constructor
          · intro h; exact ⟨s, [], by simp, h, rfl⟩
          · rintro ⟨u, v, huv, hu, hv⟩
            have hv0 : v = [] := hv
            subst hv0
            simpa [huv] using hu
        · have heb' : b.isEps = false := Bool.eq_false_iff.mpr heb
          simp only [heb', if_false]
          exact Iff.rfl

/-- Inversion of Kleene iteration at a nonempty word. -/
theorem starL_cons {P : List Char → Prop} {c : Char} {s : List Char}
    (h : StarL P (c :: s)) : ∃ u v, s = u ++ v ∧ P (c :: u) ∧ StarL P v := by
  generalize hw : c :: s = w at h
  induction h generalizing c s with
  | nil => simp at hw
  | app u v hu hv ih =>
    cases u with
    | nil =>
      simp at hw
      exact ih hw
    | cons x xs =>
      have hx : x = c := by
        have := congrArg (List.head? ·) hw
        simpa using this.symm
      have hxs : s = xs ++ v := by
        have := congrArg (List.tail ·) hw
        simpa using this
      subst hx
      exact ⟨xs, v, hxs, hu, hv⟩

theorem deriv_lang {g : G} {c : Char} : ∀ {s : List Char},
    Lang (g.deriv c) s ↔ Lang g (c :: s) := by
  induction g with
  | fail => intro s; simp [G.deriv, Lang]
  | eps => intro s; simp [G.deriv, Lang]
  | cls cc =>
    intro s
    simp only [G.deriv]
    by_cases h : cc.memb c = true
    · simp only [h, if_true, Lang]
      constructor
      · intro hs; subst hs; exact ⟨c, rfl, h⟩
      · rintro ⟨c', hc', hm⟩
        have : c = c' ∧ s = [] := by
          constructor
          · have := congrArg (List.head? ·) hc'
            simpa using this
          · have := congrArg (List.tail ·) hc'
            simpa using this
        exact this.2
    · have h' : cc.memb c = false := Bool.eq_false_iff.mpr h
      simp only [h', if_false, Lang]
      constructor
      · intro hs; exact absurd hs (fun hx => hx)
      · rintro ⟨c', hc', hm⟩
        have hcc : c = c' := by
          have := congrArg (List.head? ·) hc'
          simpa using this
        subst hcc
        simp [hm] at h'
  | alt a b iha ihb =>
    intro s
    simp only [G.deriv, lang_calt, Lang]
    exact or_congr iha ihb
  | cat a b iha ihb =>
    intro s
    simp only [G.deriv]
    by_cases hn : a.nullable = true
    · simp only [hn, if_true, lang_calt, lang_ccat]
      constructor
      · rintro (⟨u, v, huv, hu, hv⟩ | hb)
        · subst huv
          exact ⟨c :: u, v, rfl, iha.mp hu, hv⟩
        · exact ⟨[], c :: s, rfl, nullable_iff.mp hn, ihb.mp hb⟩
      · rintro ⟨u, v, huv, hu, hv⟩
        cases u with
        | nil =>
          have hv' : c :: s = v := by simpa using huv
          subst hv'
          exact Or.inr (ihb.mpr hv)
        | cons x xs =>
          have hx : x = c := by
            have := congrArg (List.head? ·) huv
            simpa using this.symm
          have hxs : s = xs ++ v := by
            have := congrArg (List.tail ·) huv
            simpa using this
          subst hx
          exact Or.inl ⟨xs, v, hxs, iha.mpr hu, hv⟩
    · rw [if_neg hn]
      rw [lang_ccat]
      constructor
      · rintro ⟨u, v, huv, hu, hv⟩
        subst huv
        exact ⟨c :: u, v, rfl, iha.mp hu, hv⟩
      · rintro ⟨u, v, huv, hu, hv⟩
        cases u with
        | nil =>
          exact absurd (nullable_iff.mpr hu) hn
        | cons x xs =>
          have hx : x = c := by
            have := congrArg (List.head? ·) huv
            simpa using this.symm
          have hxs : s = xs ++ v := by
            have := congrArg (List.tail ·) huv
            simpa using this
          subst hx
          exact ⟨xs, v, hxs, iha.mpr hu, hv⟩
  | star a iha =>
    intro s
    simp only [G.deriv, lang_ccat]
    constructor
    · rintro ⟨u, v, huv, hu, hv⟩
      subst huv
      have : StarL (Lang a) ((c :: u) ++ v) :=
        StarL.app (c :: u) v (iha.mp hu) hv
      simpa using this
    · intro h
      obtain ⟨u, v, huv, hu, hv⟩ := starL_cons h
      exact ⟨u, v, huv, iha.mpr hu, hv⟩

theorem derivs_lang {s : List Char} : ∀ {g : G} {t : List Char},
    Lang (derivs g s) t ↔ Lang g (s ++ t) := by
  induction s with
  | nil => intro g t; exact Iff.rfl
  | cons c cs ih =>
    intro g t
    have h1 : derivs g (c :: cs) = derivs (g.deriv c) cs := rfl
    rw [h1, ih]
    exact deriv_lang

/-- Acceptance means the iterated derivative is nullable. -/
theorem nullable_derivs_iff {g : G} {s : List Char} :
    (derivs g s).nullable = true ↔ Lang g s := by
  rw [nullable_iff, derivs_lang]
  simp

theorem isFail_calt {a b : G} :
    (G.calt a b).isFail = (a.isFail && b.isFail) := by
  unfold G.calt
  by_cases ha : a.isFail = true
  · simp [ha]
  · have ha' : a.isFail = false := Bool.eq_false_iff.mpr ha
    by_cases hb : b.isFail = true
    · simp [ha', hb]
    · have hb' : b.isFail = false := Bool.eq_false_iff.mpr hb
      simp [ha', hb', G.isFail]

theorem isFail_ccat {a b : G} :
    (G.ccat a b).isFail = (a.isFail || b.isFail) := by
  unfold G.ccat
  by_cases hf : (a.isFail || b.isFail) = true
  · simp [hf, G.isFail]
  · have hf' : (a.isFail || b.isFail) = false := Bool.eq_false_iff.mpr hf
    rw [Bool.or_eq_false_iff] at hf'
    rw [if_neg hf]
    by_cases hea : a.isEps = true
    · have : a = .eps := lang_isEps hea
      subst this
      rw [if_pos hea]
      simp [G.isFail, hf'.2]
    · rw [if_neg hea]
      by_cases heb : b.isEps = true
      · have : b = .eps := lang_isEps heb
        subst this
        rw [if_pos heb]
        simp [G.isFail, hf'.1]
      · rw [if_neg heb]
        simp [G.isFail]

theorem isFail_deriv {g : G} {c : Char} (h : g.isFail = true) :
    (g.deriv c).isFail = true := by
  induction g with
  | fail => rfl
  | eps => simp [G.isFail] at h
  | cls cc => simp [G.isFail] at h
  | alt a b iha ihb =>
    simp only [G.isFail, Bool.and_eq_true] at h
    simp [G.deriv, isFail_calt, iha h.1, ihb h.2]
  | cat a b iha ihb =>
    simp only [G.isFail, Bool.or_eq_true] at h
    cases h with
    | inl ha =>
      have hna : a.nullable = false := isFail_not_nullable ha
      simp [G.deriv, hna, isFail_ccat, iha ha]
    | inr hb =>
      by_cases hn : a.nullable = true
      · simp [G.deriv, hn, isFail_calt, isFail_ccat, hb, ihb hb]
      · have hn' : a.nullable = false := Bool.eq_false_iff.mpr hn
        simp [G.deriv, hn', isFail_ccat, hb]
  | star a iha => simp [G.isFail] at h

theorem canExtend_false_deriv {g : G} (h : g.canExtend = false) (c : Char) :
    (g.deriv c).isFail = true := by
  induction g with
  | fail => rfl
  | eps => rfl
  | cls cc => simp [G.canExtend] at h
  | alt a b iha ihb =>
    simp only [G.canExtend, Bool.or_eq_false_iff] at h
    simp [G.deriv, isFail_calt, iha h.1, ihb h.2]
  | cat a b iha ihb =>
    simp only [G.canExtend, Bool.or_eq_false_iff, Bool.and_eq_false_iff] at h
    obtain ⟨h1, h2⟩ := h
    by_cases hn : a.nullable = true
    · have hcb : b.canExtend = false := by
        cases h2 with
        | inl hx => simp [hn] at hx
        | inr hx => simpa using hx
      have hb : (b.deriv c).isFail = true := ihb hcb
      cases h1 with
      | inl hx =>
        have ha : (a.deriv c).isFail = true := iha (by simpa using hx)
        simp [G.deriv, hn, isFail_calt, isFail_ccat, ha, hb]
      | inr hx =>
        have hfb : b.isFail = true := by simpa using hx
        simp [G.deriv, hn, isFail_calt, isFail_ccat, hfb, hb]
    · have hn' : a.nullable = false := Bool.eq_false_iff.mpr hn
      cases h1 with
      | inl hx =>
        have ha : (a.deriv c).isFail = true := iha (by simpa using hx)
        simp [G.deriv, hn', isFail_ccat, ha]
      | inr hx =>
        have hfb : b.isFail = true := by simpa using hx
        simp [G.deriv, hn', isFail_ccat, hfb]
  | star a iha =>
    simp only [G.canExtend] at h
    simp [G.deriv, isFail_ccat, iha h]

/-! ### Incremental drive loop

Modelled from the spec: the Parser Combinator Engine and Incremental Drive
Loop (`create_state`, `advance`, `finish`, and the block-parse entry point of
`kalosm_sample::Parser::parse`) are not among the given source files; the
definitions below follow spec section 4.3 word for word.  A parser state is the
residual grammar expression together with the bytes consumed so far;
`advance` consumes one byte and reports `Invalid` exactly when no continuation
of the consumed bytes can any longer be accepted. -/

/-- Modelled from the spec: `create_state(ParserNode) -> ParserState`. -/
def createState (g : G) : G := g

/-- Modelled from the spec: `advance(state, byte) -> Continue(state) | Invalid`. -/
def advance (st : G) (c : Char) : Option G :=
  let d := st.deriv c
  if d.isFail then none else some d

/-- Feed a whole buffer through `advance`, stopping at the first `Invalid`. -/
def feed (st : G) : List Char → Option G
  | [] => some st
  | c :: rest =>
    match advance st c with
    | none => none
    | some st' => feed st' rest

/-- Modelled from the spec: `finish(state) -> Finished | Incomplete`;
the session is finished exactly when the consumed bytes form a complete value. -/
def finish (st : G) : Bool := st.nullable

/-- A byte string drives the compiled parser to `Finished`: feeding it from a
fresh state succeeds and `finish` reports a complete value. -/
def accepts (g : G) (s : List Char) : Bool :=
  match feed (createState g) s with
  | some st => finish st
  | none => false

theorem isFail_derivs {s : List Char} : ∀ {g : G}, g.isFail = true →
    (derivs g s).isFail = true := by
  induction s with
  | nil => intro g h; exact h
  | cons c cs ih =>
    intro g h
    exact ih (isFail_deriv h)

theorem accepts_eq_nullable_derivs {s : List Char} : ∀ {g : G},
    accepts g s = (derivs g s).nullable := by
  induction s with
  | nil => intro g; rfl
  | cons c cs ih =>
    intro g
    show (match feed (createState g) (c :: cs) with
          | some st => finish st
          | none => false) = (derivs (g.deriv c) cs).nullable
    by_cases h : (g.deriv c).isFail = true
    · have hfail : (derivs (g.deriv c) cs).isFail = true := isFail_derivs h
      have hnn : (derivs (g.deriv c) cs).nullable = false := isFail_not_nullable hfail
      simp only [createState, feed, advance, h, if_true, hnn]
    · have h' : (g.deriv c).isFail = false := Bool.eq_false_iff.mpr h
      simp only [createState, feed, advance, h', Bool.false_eq_true, if_false]
      exact ih

/-- Acceptance agrees with the declarative language of the grammar. -/
theorem accepts_iff_lang {g : G} {s : List Char} :
    accepts g s = true ↔ Lang g s := by
  rw [accepts_eq_nullable_derivs, nullable_derivs_iff]

/-- Outcome of the block-parse entry point: a finished value (the consumed
bytes, with the unconsumed remainder), a continuing incomplete state, or a
rejection. -/
inductive BlockOut where
  | finished (consumed remaining : List Char)
  | cont (st : G) (consumed : List Char)
  | invalid
deriving DecidableEq, Repr

/-- Modelled from the spec: the block-parse drive loop
(`Parser::parse(&state, bytes)`).  Bytes are fed one at a time through the
derivative step; the session reports `Finished` as soon as the consumed bytes
form a complete value that no further byte could extend (trailing bytes are
left unconsumed), reports `Invalid` as soon as a byte makes every live
candidate branch unsatisfiable while no value has completed, and otherwise
stays incomplete, returning the continuing state at end of input. -/
def parse (st : G) (acc : List Char) : List Char → BlockOut
  | [] =>
    if st.nullable && !st.canExtend then .finished acc []
    else .cont st acc
  | c :: rest =>
    let d := st.deriv c
    if d.isFail then
      if st.nullable then .finished acc (c :: rest) else .invalid
    else parse d (acc ++ [c]) rest

/-- Feed the same bytes through `parse` one byte per call, continuing from the
returned state, as the generation loop does with per-token candidates. -/
def driveBytes (st : G) (acc : List Char) : List Char → BlockOut
  | [] => parse st acc []
  | c :: rest =>
    match parse st acc [c] with
    | .cont st' acc' => driveBytes st' acc' rest
    | out => out

/-- Is the outcome an incomplete, continuing session? -/
def BlockOut.isCont : BlockOut → Bool
  | .cont _ _ => true
  | _ => false

theorem drive_eq_parse {s : List Char} : ∀ {g : G} {acc : List Char},
    (derivs g s).nullable = true → driveBytes g acc s = parse g acc s := by
  induction s with
  | nil => intro g acc _; rfl
  | cons c cs ih =>
    intro g acc h
    have hnf : (g.deriv c).isFail = false := by
      cases hx : (g.deriv c).isFail with
      | false => rfl
      | true =>
        have : (derivs (g.deriv c) cs).isFail = true := isFail_derivs hx
        have := isFail_not_nullable this
        rw [show derivs g (c :: cs) = derivs (g.deriv c) cs from rfl] at h
        simp [h] at this
    show (match parse g acc [c] with
          | .cont st' acc' => driveBytes st' acc' cs
          | out => out) = parse g acc (c :: cs)
    have hstep : parse g acc (c :: cs) = parse (g.deriv c) (acc ++ [c]) cs := by
      simp only [parse, hnf, Bool.false_eq_true, if_false]
    have hone : parse g acc [c] =
        (if (g.deriv c).nullable && !(g.deriv c).canExtend then
          .finished (acc ++ [c]) [] else .cont (g.deriv c) (acc ++ [c])) := by
      simp only [parse, hnf, Bool.false_eq_true, if_false]
    by_cases hdone : ((g.deriv c).nullable && !(g.deriv c).canExtend) = true
    · -- the value is complete and nothing can extend it: the suffix must be empty
      cases cs with
      | nil =>
        have hfin : parse (g.deriv c) (acc ++ [c]) [] = .finished (acc ++ [c]) [] := by
          simp [parse, hdone]
        rw [hstep, hfin]
      | cons c' cs' =>
        exfalso
        have hce : (g.deriv c).canExtend = false := by
          rcases Bool.and_eq_true .. |>.mp hdone with ⟨_, hx⟩
          simpa using hx
        have : ((g.deriv c).deriv c').isFail = true := canExtend_false_deriv hce c'
        have hf : (derivs ((g.deriv c).deriv c') cs').isFail = true := isFail_derivs this
        have := isFail_not_nullable hf
        rw [show derivs g (c :: c' :: cs') = derivs ((g.deriv c).deriv c') cs' from rfl] at h
        simp [h] at this
    · rw [hone, if_neg hdone]
      show driveBytes (g.deriv c) (acc ++ [c]) cs = parse g acc (c :: cs)
      rw [hstep]
      exact ih (by rw [show derivs g (c :: cs) = derivs (g.deriv c) cs from rfl] at h; exact h)

/-! ### Serialized values

The serialization vocabulary of spec section 6: JSON-shaped values with the
canonical spacing shown there (one space after each key colon and separating
comma, no other whitespace). -/

/-- The double-quote delimiter of serialized strings. -/
def quoteChar : Char := '\"'

/-- Opening brace of a serialized object. -/
def lbrace : Char := Char.ofNat 123

/-- Closing brace of a serialized object. -/
def rbrace : Char := Char.ofNat 125

/-- The serialized form of an object key: `"name": `. -/
def keyLit (n : List Char) : List Char := quoteChar :: n ++ [quoteChar, ':', ' ']

/-- Member separator: `, `. -/
def commaSpace : List Char := [',', ' ']

/-- A quoted string: `"body"`. -/
def quoted (d : List Char) : List Char := quoteChar :: d ++ [quoteChar]

/-- Canonical decimal rendering of a natural number. -/
def natRender (n : Nat) : List Char := Nat.toDigits 10 n

/-- Canonical decimal rendering of an integer: a leading minus sign for a
negative value (the sign the range parser tracks), then the digits. -/
def intRender (n : Int) : List Char :=
  if n < 0 then '-' :: natRender (-n).toNat else natRender n.toNat

mutual
inductive Json where
  | str (s : List Char)
  | num (n : Int)
  | bool (b : Bool)
  | arr (elems : Elems)
  | obj (members : Members)

inductive Elems where
  | nil
  | cons (j : Json) (rest : Elems)

inductive Members where
  | nil
  | cons (key : List Char) (value : Json) (rest : Members)
end

mutual
/-- Canonical serialization of a value, per the wire encodings of spec section 6. -/
def render : Json → List Char
  | .str s => quoted s
  | .num n => intRender n
  | .bool b => if b then "true".toList else "false".toList
  | .arr es => '[' :: (renderElems es ++ [']'])
  | .obj ms => lbrace :: (renderMembers ms ++ [rbrace])
termination_by structural j => j

/-- Serialization of array elements, comma-space separated. -/
def renderElems : Elems → List Char
  | .nil => []
  | .cons j rest => render j ++ renderElemsTail rest
termination_by structural es => es

/-- Continuation of array elements: a separator before each further element. -/
def renderElemsTail : Elems → List Char
  | .nil => []
  | .cons j rest => commaSpace ++ (render j ++ renderElemsTail rest)
termination_by structural es => es

/-- Serialization of object members, comma-space separated. -/
def renderMembers : Members → List Char
  | .nil => []
  | .cons k v rest => keyLit k ++ (render v ++ renderMembersTail rest)
termination_by structural ms => ms

/-- Continuation of object members: a separator before each further member. -/
def renderMembersTail : Members → List Char
  | .nil => []
  | .cons k v rest => commaSpace ++ (keyLit k ++ (render v ++ renderMembersTail rest))
termination_by structural ms => ms
end

/-! ### Schema model -/

/-- String constraints of the data model: inclusive length bounds or a
regular-expression pattern over the string body. -/
inductive SC where
  | len (lo hi : Nat)
  | pattern (re : G)

mutual
/-- Schema nodes, the output of the schema compiler (spec section 3).  Objects
always require every listed property and forbid additional properties, as the
compiler emits them. -/
inductive SchemaNode where
  | object (props : Props)
  | oneOf (alts : Alts)
  | enum (vals : List (List Char))
  | cst (v : List Char)
  | integer (lo hi : Int)
  | strNode (sc : Option SC)

inductive Props where
  | nil
  | cons (name : List Char) (sch : SchemaNode) (rest : Props)

inductive Alts where
  | nil
  | cons (sch : SchemaNode) (rest : Alts)
end

/-- The property names of an object schema, as JSON strings. -/
def propNames : Props → Elems
  | .nil => .nil
  | .cons n _ rest => .cons (.str n) (propNames rest)

/-- String list as JSON array elements. -/
def strElems : List (List Char) → Elems
  | [] => .nil
  | v :: rest => .cons (.str v) (strElems rest)

mutual
/-- The declarative schema document of a schema node, in the interoperable
vocabulary of spec section 6.  Constraints beyond the base type are
compiler-internal and do not round-trip into the document. -/
def schemaToJson : SchemaNode → Json
  | .object props =>
    .obj (.cons "type".toList (.str "object".toList)
      (.cons "properties".toList (.obj (propsToMembers props))
        (.cons "required".toList (.arr (propNames props))
          (.cons "additionalProperties".toList (.bool false) .nil))))
  | .oneOf alts => .obj (.cons "oneOf".toList (.arr (altsToElems alts)) .nil)
  | .enum vals => .obj (.cons "enum".toList (.arr (strElems vals)) .nil)
  | .cst v => .obj (.cons "const".toList (.str v) .nil)
  | .integer _ _ => .obj (.cons "type".toList (.str "integer".toList) .nil)
  | .strNode _ => .obj (.cons "type".toList (.str "string".toList) .nil)
termination_by structural sch => sch

/-- Property schemas as document members. -/
def propsToMembers : Props → Members
  | .nil => .nil
  | .cons n sch rest => .cons n (schemaToJson sch) (propsToMembers rest)
termination_by structural ps => ps

/-- Alternative schemas as document array elements. -/
def altsToElems : Alts → Elems
  | .nil => .nil
  | .cons sch rest => .cons (schemaToJson sch) (altsToElems rest)
termination_by structural alts => alts
end

/-- Quote-freedom of a serialized string body. -/
def quoteFree (s : List Char) : Bool := s.all (fun c => c != quoteChar)

/-- Membership of a string in a string list. -/
def strIn : List (List Char) → List Char → Bool
  | [], _ => false
  | v :: rest, s => s == v || strIn rest s

mutual
/-- Validity of a value against a schema node: the value is an instance of the
schema document.  Objects must carry exactly the schema's properties, in the
schema's (ordered-map) property order, with every property required and no
additional ones. -/
def validB : SchemaNode → Json → Bool
  | .object props, .obj ms => validProps props ms
  | .object _, _ => false
  | .oneOf alts, j => validAlts alts j
  | .enum vals, .str s => strIn vals s
  | .enum _, _ => false
  | .cst v, .str s => s == v
  | .cst _, _ => false
  | .integer lo hi, .num n => decide (lo ≤ n) && decide (n ≤ hi)
  | .integer _ _, _ => false
  | .strNode none, .str s => quoteFree s
  | .strNode (some (.len lo hi)), .str s =>
    quoteFree s && decide (lo ≤ s.length) && decide (s.length ≤ hi)
  | .strNode (some (.pattern re)), .str s => accepts re s
  | .strNode _, _ => false
termination_by structural sch _j => sch

/-- Pairwise validity of object members against object properties. -/
def validProps : Props → Members → Bool
  | .nil, .nil => true
  | .cons n sch ps, .cons k v ms => k == n && validB sch v && validProps ps ms
  | _, _ => false
termination_by structural ps _ms => ps

/-- Validity against some alternative of a one-of. -/
def validAlts : Alts → Json → Bool
  | .nil, _ => false
  | .cons a rest, j => validB a j || validAlts rest j
termination_by structural alts _j => alts
end

/-! ### Type descriptions and the two compilers -/

mutual
/-- The compile-time type description of spec section 3.  Integer primitives
carry their signed (inclusive) range; an unconstrained Rust integer type
carries its natural machine range.  Field and variant names are the serialized
names, after any rename annotation has been applied. -/
inductive Ty where
  | int (lo hi : Int)
  | str (sc : Option SC)
  | record (fields : Fields)
  | union (tagging : Option (List Char × List Char)) (variants : Variants)

inductive Fields where
  | nil
  | cons (name : List Char) (t : Ty) (rest : Fields)

inductive Variants where
  | nil
  | cons (disc : List Char) (shape : VShape) (rest : Variants)

inductive VShape where
  | unit
  | tuple (t : Ty)
  | record (fields : Fields)
end

/-- Tag and content key of a union: the configured tag/content pair for the
tagged encoding, or the fixed `type`/`data` keys of the mixed encoding. -/
def variantKeys : Option (List Char × List Char) → List Char × List Char
  | some p => p
  | none => ("type".toList, "data".toList)

/-- Does every variant of the union carry no payload? -/
def allUnit : Variants → Bool
  | .nil => true
  | .cons _ .unit rest => allUnit rest
  | .cons _ _ _ => false

/-- The serialized discriminants, in declaration order. -/
def discList : Variants → List (List Char)
  | .nil => []
  | .cons d _ rest => d :: discList rest

/-- The serialized field names, in declaration order. -/
def fieldNames : Fields → List (List Char)
  | .nil => []
  | .cons n _ rest => n :: fieldNames rest

mutual
/-- Modelled from the spec: `Schema Compiler::compile` (the Schema derive) is
not among the given source files; this follows spec section 4.1.  Records
compile to objects with all fields required and no additional properties;
unions compile to a one-of of per-variant objects, except that payload-free
unions flatten to a plain enumeration of the discriminants; primitives keep
their constraint. -/
def compileSchema : Ty → SchemaNode
  | .int lo hi => .integer lo hi
  | .str sc => .strNode sc
  | .record fs => .object (fieldsSchema fs)
  | .union tg vs =>
    if allUnit vs then .enum (discList vs) else .oneOf (variantsSchema tg vs)
termination_by structural t => t

/-- Field schemas, in declaration order. -/
def fieldsSchema : Fields → Props
  | .nil => .nil
  | .cons n t rest => .cons n (compileSchema t) (fieldsSchema rest)
termination_by structural fs => fs

/-- Per-variant object alternatives. -/
def variantsSchema : Option (List Char × List Char) → Variants → Alts
  | _, .nil => .nil
  | tg, .cons d sh rest => .cons (variantSchema tg d sh) (variantsSchema tg rest)
termination_by structural _tg vs => vs

/-- The object alternative of one variant: a constant discriminant property
under the tag key, plus (for payload-carrying variants) the payload under the
content key — an object for record variants, the bare inner schema for tuple
variants, nothing for unit variants. -/
def variantSchema (tg : Option (List Char × List Char)) (d : List Char) :
    VShape → SchemaNode
  | .unit => .object (.cons (variantKeys tg).1 (.cst d) .nil)
  | .tuple t =>
    .object (.cons (variantKeys tg).1 (.cst d)
      (.cons (variantKeys tg).2 (compileSchema t) .nil))
  | .record fs =>
    .object (.cons (variantKeys tg).1 (.cst d)
      (.cons (variantKeys tg).2 (.object (fieldsSchema fs)) .nil))
termination_by structural sh => sh
end

/-- The grammar matching exactly one literal byte string. -/
def lit : List Char → G
  | [] => .eps
  | c :: cs => .cat (.cls (.single c)) (lit cs)

/-- Ordered choice among a list of grammars. -/
def choiceList : List G → G
  | [] => .fail
  | g :: gs => .alt g (choiceList gs)

/-- Exactly `k` string-body (non-quote) characters. -/
def repNQ : Nat → G
  | 0 => .eps
  | k + 1 => .cat (.cls .nonQuote) (repNQ k)

/-- The integers of the inclusive signed range, in increasing order. -/
def intRangeList (lo hi : Int) : List Int :=
  (List.range (hi + 1 - lo).toNat).map (fun (i : Nat) => lo + (i : Int))

/-- The signed digit strings (sign tracked by a leading minus, then digit
bytes) of every integer in the inclusive range: the candidate set a
range-constrained numeric parser keeps live, rejecting as soon as no number
remaining in range is still reachable. -/
def intRangeG (lo hi : Int) : G :=
  choiceList ((intRangeList lo hi).map (fun n => lit (intRender n)))

/-- The body grammar of a constrained string primitive. -/
def strBodyG : Option SC → G
  | none => .star (.cls .nonQuote)
  | some (.len lo hi) => choiceList ((List.range' lo (hi + 1 - lo)).map repNQ)
  | some (.pattern re) => re

/-- The opening literal of a payload-carrying variant object:
`{"<tag>": "<disc>", "<content>": `. -/
def variantOpen (tg : Option (List Char × List Char)) (d : List Char) : List Char :=
  lbrace :: (keyLit (variantKeys tg).1 ++ quoted d ++ commaSpace ++ keyLit (variantKeys tg).2)

mutual
/-- Modelled from the spec: `Parser Compiler::compile` (the Parse derive's
`new_parser`) is not among the given source files; this follows spec section
4.2.  Records become sequences of field sub-parsers interleaved with the
structural literals of the object syntax; unions become a choice keyed on the
discriminant literal (payload-free unions parse the bare quoted discriminant);
constrained primitives keep exactly the candidate strings their constraint
allows. -/
def compileParser : Ty → G
  | .int lo hi => intRangeG lo hi
  | .str sc =>
    .cat (.cls (.single quoteChar)) (.cat (strBodyG sc) (.cls (.single quoteChar)))
  | .record fs => .cat (lit [lbrace]) (.cat (fieldsParser fs) (lit [rbrace]))
  | .union tg vs =>
    if allUnit vs then choiceList ((discList vs).map (fun d => lit (quoted d)))
    else variantsParser tg vs
termination_by structural t => t

/-- The field sequence of a record body (between the braces). -/
def fieldsParser : Fields → G
  | .nil => .eps
  | .cons n t rest => .cat (lit (keyLit n)) (.cat (compileParser t) (fieldsTail rest))
termination_by structural fs => fs

/-- Continuation of a record body: a separator literal before each further
field. -/
def fieldsTail : Fields → G
  | .nil => .eps
  | .cons n t rest =>
    .cat (lit commaSpace) (.cat (lit (keyLit n)) (.cat (compileParser t) (fieldsTail rest)))
termination_by structural fs => fs

/-- The choice among variant alternatives. -/
def variantsParser : Option (List Char × List Char) → Variants → G
  | _, .nil => .fail
  | tg, .cons d sh rest => .alt (variantParser tg d sh) (variantsParser tg rest)
termination_by structural _tg vs => vs

/-- The object parser of one variant. -/
def variantParser (tg : Option (List Char × List Char)) (d : List Char) :
    VShape → G
  | .unit => lit (lbrace :: (keyLit (variantKeys tg).1 ++ quoted d ++ [rbrace]))
  | .tuple t => .cat (lit (variantOpen tg d)) (.cat (compileParser t) (lit [rbrace]))
  | .record fs =>
    .cat (lit (variantOpen tg d))
      (.cat (.cat (lit [lbrace]) (.cat (fieldsParser fs) (lit [rbrace]))) (lit [rbrace]))
termination_by structural sh => sh
end

/-- Pairwise distinctness of serialized names. -/
def distinctKeys : List (List Char) → Bool
  | [] => true
  | n :: rest => !(strIn rest n) && distinctKeys rest

/-- A well-formed regular-expression pattern: built over string-body characters. -/
def patOk : G → Bool
  | .fail => true
  | .eps => true
  | .cls (.single c) => c != quoteChar
  | .cls .nonQuote => true
  | .alt a b => patOk a && patOk b
  | .cat a b => patOk a && patOk b
  | .star a => patOk a

/-- Well-formedness of a primitive string constraint. -/
def scOk : Option SC → Bool
  | none => true
  | some (.len lo hi) => decide (lo ≤ hi)
  | some (.pattern re) => patOk re

mutual
/-- Well-formedness of a type description, per the invariants of spec
section 3: ordered range and length bounds, valid patterns, unique serialized
names within an object shape, unique discriminants across a union's variants. -/
def wfTy : Ty → Bool
  | .int lo hi => decide (lo ≤ hi)
  | .str sc => scOk sc
  | .record fs => distinctKeys (fieldNames fs) && wfFields fs
  | .union _ vs => distinctKeys (discList vs) && wfVariants vs
termination_by structural t => t

/-- Well-formedness of every field. -/
def wfFields : Fields → Bool
  | .nil => true
  | .cons _ t rest => wfTy t && wfFields rest
termination_by structural fs => fs

/-- Well-formedness of every variant. -/
def wfVariants : Variants → Bool
  | .nil => true
  | .cons _ sh rest => wfShape sh && wfVariants rest
termination_by structural vs => vs

/-- Well-formedness of a variant payload. -/
def wfShape : VShape → Bool
  | .unit => true
  | .tuple t => wfTy t
  | .record fs => distinctKeys (fieldNames fs) && wfFields fs
termination_by structural sh => sh
end

/-! ### Language toolbox -/

theorem lang_single {c : Char} {s : List Char} :
    Lang (.cls (.single c)) s ↔ s = [c] := by
  show (∃ c', s = [c'] ∧ CC.memb (.single c) c' = true) ↔ s = [c]
  constructor
  · rintro ⟨c', hs, hm⟩
    have : c' = c := by simpa [CC.memb] using hm
    subst this
    exact hs
  · intro hs
    exact ⟨c, hs, by simp [CC.memb]⟩

theorem lang_lit {w : List Char} : ∀ {s : List Char}, Lang (lit w) s ↔ s = w := by
  induction w with
  | nil => intro s; exact Iff.rfl
  | cons c cs ih =>
    intro s
    show (∃ u v, s = u ++ v ∧ Lang (.cls (.single c)) u ∧ Lang (lit cs) v) ↔ s = c :: cs
    constructor
    · rintro ⟨u, v, hs, hu, hv⟩
      have hu' : u = [c] := lang_single.mp hu
      have hv' : v = cs := ih.mp hv
      subst hu'; subst hv'
      exact hs
    · intro hs
      exact ⟨[c], cs, hs, lang_single.mpr rfl, ih.mpr rfl⟩

theorem lang_choiceList {l : List G} {s : List Char} :
    Lang (choiceList l) s ↔ ∃ g ∈ l, Lang g s := by
  induction l with
  | nil => simp [choiceList, Lang]
  | cons g gs ih =>
    show (Lang g s ∨ Lang (choiceList gs) s) ↔ _
    rw [ih]
    constructor
    · rintro (h | ⟨g', hg', h⟩)
      · exact ⟨g, by simp, h⟩
      · exact ⟨g', by simp [hg'], h⟩
    · rintro ⟨g', hg', h⟩
      rcases List.mem_cons.mp hg' with rfl | hmem
      · exact Or.inl h
      · exact Or.inr ⟨g', hmem, h⟩

theorem lang_starNQ : ∀ {s : List Char},
    Lang (.star (.cls .nonQuote)) s ↔ quoteFree s = true := by
  have fwd : ∀ {s}, StarL (Lang (.cls .nonQuote)) s → quoteFree s = true := by
    intro s h
    induction h with
    | nil => rfl
    | app u v hu hv ih =>
      obtain ⟨c, hc, hm⟩ := hu
      subst hc
      simp only [quoteFree, List.all_append, List.all_cons, List.all_nil,
        Bool.and_true, Bool.and_eq_true]
      refine ⟨by simpa [CC.memb] using hm, ?_⟩
      simpa [quoteFree] using ih
  intro s
  constructor
  · exact fwd
  · intro h
    induction s with
    | nil => exact StarL.nil
    | cons c cs ih =>
      simp only [quoteFree, List.all_cons, Bool.and_eq_true] at h
      have hcs : StarL (Lang (.cls .nonQuote)) cs := ih (by simpa [quoteFree] using h.2)
      have : StarL (Lang (.cls .nonQuote)) ([c] ++ cs) :=
        StarL.app [c] cs ⟨c, rfl, by simpa [CC.memb] using h.1⟩ hcs
      simpa using this

theorem lang_repNQ {k : Nat} : ∀ {s : List Char},
    Lang (repNQ k) s ↔ (s.length = k ∧ quoteFree s = true) := by
  induction k with
  | zero =>
    intro s
    show s = [] ↔ _
    constructor
    · rintro rfl; exact ⟨rfl, rfl⟩
    · rintro ⟨h, _⟩
      exact List.length_eq_zero.mp h
  | succ k ih =>
    intro s
    show (∃ u v, s = u ++ v ∧ Lang (.cls .nonQuote) u ∧ Lang (repNQ k) v) ↔ _
    constructor
    · rintro ⟨u, v, hs, hu, hv⟩
      obtain ⟨c, hc, hm⟩ := hu
      subst hc
      obtain ⟨hlen, hqf⟩ := ih.mp hv
      subst hs
      refine ⟨by simp [hlen], ?_⟩
      simp only [quoteFree, List.all_append, List.all_cons, List.all_nil, Bool.and_true,
        Bool.and_eq_true]
      exact ⟨by simpa [CC.memb] using hm, by simpa [quoteFree] using hqf⟩
    · rintro ⟨hlen, hqf⟩
      cases s with
      | nil => simp at hlen
      | cons c cs =>
        simp only [quoteFree, List.all_cons, Bool.and_eq_true] at hqf
        refine ⟨[c], cs, rfl, ⟨c, rfl, by simpa [CC.memb] using hqf.1⟩, ?_⟩
        exact ih.mpr ⟨by simpa using hlen, by simpa [quoteFree] using hqf.2⟩

theorem strIn_iff {l : List (List Char)} {s : List Char} :
    strIn l s = true ↔ s ∈ l := by
  induction l with
  | nil => simp [strIn]
  | cons v rest ih =>
    show (s == v || strIn rest s) = true ↔ _
    rw [Bool.or_eq_true, ih, beq_iff_eq]
    simp

/-- The string primitives: a quoted body whose grammar is the constraint's
body grammar. -/
theorem lang_quoted_body {body : G} {s : List Char} :
    Lang (.cat (.cls (.single quoteChar)) (.cat body (.cls (.single quoteChar)))) s ↔
      ∃ b, s = quoted b ∧ Lang body b := by
  constructor
  · rintro ⟨u, v, hs, hu, ⟨b, w, hv, hb, hw⟩⟩
    have hu' : u = [quoteChar] := lang_single.mp hu
    have hw' : w = [quoteChar] := lang_single.mp hw
    subst hu'; subst hw'; subst hv; subst hs
    exact ⟨b, by simp [quoted], hb⟩
  · rintro ⟨b, hs, hb⟩
    subst hs
    exact ⟨[quoteChar], b ++ [quoteChar], by simp [quoted],
      lang_single.mpr rfl, b, [quoteChar], rfl, hb, lang_single.mpr rfl⟩

theorem mem_intRangeList {lo hi n : Int} :
    n ∈ intRangeList lo hi ↔ lo ≤ n ∧ n ≤ hi := by
  constructor
  · intro h
    obtain ⟨i, hi', hv⟩ := List.mem_map.mp h
    have hlt : i < (hi + 1 - lo).toNat := List.mem_range.mp hi'
    have hv' : lo + (i : Int) = n := hv
    omega
  · rintro ⟨h1, h2⟩
    refine List.mem_map.mpr ⟨(n - lo).toNat, List.mem_range.mpr ?_, ?_⟩
    · omega
    · show lo + (((n - lo).toNat : Nat) : Int) = n
      omega

theorem lang_intRangeG {lo hi : Int} {s : List Char} :
    Lang (intRangeG lo hi) s ↔ ∃ n, lo ≤ n ∧ n ≤ hi ∧ s = intRender n := by
  unfold intRangeG
  rw [lang_choiceList]
  constructor
  · rintro ⟨g, hg, h⟩
    obtain ⟨n, hn, rfl⟩ := List.mem_map.mp hg
    have hn' := mem_intRangeList.mp hn
    exact ⟨n, hn'.1, hn'.2, lang_lit.mp h⟩
  · rintro ⟨n, hlo, hhi, rfl⟩
    refine ⟨lit (intRender n),
      List.mem_map.mpr ⟨n, mem_intRangeList.mpr ⟨hlo, hhi⟩, rfl⟩, ?_⟩
    exact lang_lit.mpr rfl

/-! ### Validity inversions -/

theorem validProps_nil_iff {ms : Members} :
    validProps .nil ms = true ↔ ms = .nil := by
  cases ms with
  | nil => simp [validProps]
  | cons k v rest => simp [validProps]

theorem validProps_cons_iff {n : List Char} {sch : SchemaNode} {ps : Props}
    {ms : Members} :
    validProps (.cons n sch ps) ms = true ↔
      ∃ v ms', ms = .cons n v ms' ∧ validB sch v = true ∧ validProps ps ms' = true := by
  cases ms with
  | nil => simp [validProps]
  | cons k v rest =>
    show (k == n && validB sch v && validProps ps rest) = true ↔ _
    simp only [Bool.and_eq_true, beq_iff_eq]
    constructor
    · rintro ⟨⟨rfl, h1⟩, h2⟩
      exact ⟨v, rest, rfl, h1, h2⟩
    · rintro ⟨v', ms', heq, h1, h2⟩
      cases heq
      exact ⟨⟨rfl, h1⟩, h2⟩

theorem validB_cst_iff {v : List Char} {j : Json} :
    validB (.cst v) j = true ↔ j = .str v := by
  cases j with
  | str s =>
    show (s == v) = true ↔ _
    rw [beq_iff_eq]
    constructor
    · rintro rfl; rfl
    · rintro h; cases h; rfl
  | num n => simp [validB]
  | bool b => simp [validB]
  | arr es => simp [validB]
  | obj ms => simp [validB]

theorem validB_object_iff {props : Props} {j : Json} :
    validB (.object props) j = true ↔
      ∃ ms, j = .obj ms ∧ validProps props ms = true := by
  cases j with
  | obj ms =>
    show validProps props ms = true ↔ _
    constructor
    · intro h; exact ⟨ms, rfl, h⟩
    · rintro ⟨ms', heq, h⟩; cases heq; exact h
  | str s => simp [validB]
  | num n => simp [validB]
  | bool b => simp [validB]
  | arr es => simp [validB]

theorem validB_integer_iff {lo hi : Int} {j : Json} :
    validB (.integer lo hi) j = true ↔ ∃ n, j = .num n ∧ lo ≤ n ∧ n ≤ hi := by
  cases j with
  | num n =>
    show (decide (lo ≤ n) && decide (n ≤ hi)) = true ↔ _
    simp only [Bool.and_eq_true, decide_eq_true_eq]
    constructor
    · rintro ⟨h1, h2⟩; exact ⟨n, rfl, h1, h2⟩
    · rintro ⟨n', heq, h1, h2⟩; cases heq; exact ⟨h1, h2⟩
  | str s => simp [validB]
  | bool b => simp [validB]
  | arr es => simp [validB]
  | obj ms => simp [validB]

theorem render_str (b : List Char) : render (.str b) = quoted b := by
  simp [render]

theorem render_num (n : Int) : render (.num n) = intRender n := by
  simp [render]

theorem render_obj (ms : Members) :
    render (.obj ms) = lbrace :: (renderMembers ms ++ [rbrace]) := by
  simp [render]

theorem renderMembers_cons (k : List Char) (v : Json) (rest : Members) :
    renderMembers (.cons k v rest) = keyLit k ++ (render v ++ renderMembersTail rest) := by
  simp [renderMembers]

theorem renderMembersTail_cons (k : List Char) (v : Json) (rest : Members) :
    renderMembersTail (.cons k v rest) =
      commaSpace ++ (keyLit k ++ (render v ++ renderMembersTail rest)) := by
  simp [renderMembersTail]

/-- The flattened payload-free union: the choice of quoted discriminant
literals accepts exactly the valid instances of the discriminant enumeration. -/
theorem unitEnumCase {vals : List (List Char)} {s : List Char} :
    Lang (choiceList (vals.map (fun d => lit (quoted d)))) s ↔
      ∃ j, validB (.enum vals) j = true ∧ render j = s := by
  rw [lang_choiceList]
  constructor
  · rintro ⟨g, hg, h⟩
    obtain ⟨d, hd, rfl⟩ := List.mem_map.mp hg
    refine ⟨.str d, ?_, ?_⟩
    · show strIn vals d = true
      exact strIn_iff.mpr hd
    · rw [render_str]
      exact (lang_lit.mp h).symm
  · rintro ⟨j, hv, rfl⟩
    cases j with
    | str b =>
      have hb : b ∈ vals := strIn_iff.mp (by simpa [validB] using hv)
      refine ⟨lit (quoted b), List.mem_map.mpr ⟨b, hb, rfl⟩, ?_⟩
      rw [render_str]
      exact lang_lit.mpr rfl
    | num n => simp [validB] at hv
    | bool x => simp [validB] at hv
    | arr es => simp [validB] at hv
    | obj ms => simp [validB] at hv

/-- The constrained string primitives accept exactly the quoted renderings of
the schema's valid string instances. -/
theorem strBody_case {sc : Option SC} {s : List Char} :
    Lang (.cat (.cls (.single quoteChar)) (.cat (strBodyG sc) (.cls (.single quoteChar)))) s ↔
      ∃ j, validB (.strNode sc) j = true ∧ render j = s := by
  rw [lang_quoted_body]
  cases sc with
  | none =>
    constructor
    · rintro ⟨b, rfl, hb⟩
      refine ⟨.str b, ?_, render_str b⟩
      show quoteFree b = true
      exact lang_starNQ.mp hb
    · rintro ⟨j, hv, rfl⟩
      cases j with
      | str b =>
        exact ⟨b, render_str b, lang_starNQ.mpr (by simpa [validB] using hv)⟩
      | num n => simp [validB] at hv
      | bool x => simp [validB] at hv
      | arr es => simp [validB] at hv
      | obj ms => simp [validB] at hv
  | some c =>
    cases c with
    | len lo hi =>
      constructor
      · rintro ⟨b, rfl, hb⟩
        rw [show strBodyG (some (.len lo hi)) =
          choiceList ((List.range' lo (hi + 1 - lo)).map repNQ) from rfl,
          lang_choiceList] at hb
        obtain ⟨g, hg, h⟩ := hb
        obtain ⟨k, hk, rfl⟩ := List.mem_map.mp hg
        obtain ⟨hlen, hqf⟩ := lang_repNQ.mp h
        have hk' := List.mem_range'_1.mp hk
        refine ⟨.str b, ?_, render_str b⟩
        show (quoteFree b && decide (lo ≤ b.length) && decide (b.length ≤ hi)) = true
        simp only [hqf, Bool.true_and, Bool.and_eq_true, decide_eq_true_eq]
        omega
      · rintro ⟨j, hv, rfl⟩
        cases j with
        | str b =>
          have hv' : quoteFree b = true ∧ lo ≤ b.length ∧ b.length ≤ hi := by
            have h2 : (quoteFree b && decide (lo ≤ b.length) &&
                decide (b.length ≤ hi)) = true := hv
            simp only [Bool.and_eq_true, decide_eq_true_eq] at h2
            exact ⟨h2.1.1, h2.1.2, h2.2⟩
          obtain ⟨h1, h2, h3⟩ := hv'
          refine ⟨b, render_str b, ?_⟩
          rw [show strBodyG (some (.len lo hi)) =
            choiceList ((List.range' lo (hi + 1 - lo)).map repNQ) from rfl,
            lang_choiceList]
          exact ⟨repNQ b.length,
            List.mem_map.mpr ⟨b.length, List.mem_range'_1.mpr ⟨h2, by omega⟩, rfl⟩,
            lang_repNQ.mpr ⟨rfl, h1⟩⟩
        | num n => simp [validB] at hv
        | bool x => simp [validB] at hv
        | arr es => simp [validB] at hv
        | obj ms => simp [validB] at hv
    | pattern re =>
      constructor
      · rintro ⟨b, rfl, hb⟩
        refine ⟨.str b, ?_, render_str b⟩
        show accepts re b = true
        exact accepts_iff_lang.mpr hb
      · rintro ⟨j, hv, rfl⟩
        cases j with
        | str b =>
          exact ⟨b, render_str b, accepts_iff_lang.mp (by simpa [validB] using hv)⟩
        | num n => simp [validB] at hv
        | bool x => simp [validB] at hv
        | arr es => simp [validB] at hv
        | obj ms => simp [validB] at hv

mutual

/-- The compiled parser of a type accepts exactly the canonical serializations
of the valid instances of the compiled schema. -/
theorem tyMatches (t : Ty) (s : List Char) :
    Lang (compileParser t) s ↔
      ∃ j, validB (compileSchema t) j = true ∧ render j = s := by
  cases t with
  | int lo hi =>
    show Lang (intRangeG lo hi) s ↔ ∃ j, validB (.integer lo hi) j = true ∧ render j = s
    rw [lang_intRangeG]
    constructor
    · rintro ⟨n, h1, h2, rfl⟩
      exact ⟨.num n, validB_integer_iff.mpr ⟨n, rfl, h1, h2⟩, render_num n⟩
    · rintro ⟨j, hv, rfl⟩
      obtain ⟨n, rfl, h1, h2⟩ := validB_integer_iff.mp hv
      exact ⟨n, h1, h2, (render_num n).symm⟩
  | str sc =>
    exact strBody_case
  | record fs =>
    show Lang (.cat (lit [lbrace]) (.cat (fieldsParser fs) (lit [rbrace]))) s ↔
      ∃ j, validB (.object (fieldsSchema fs)) j = true ∧ render j = s
    constructor
    · rintro ⟨u, v, hs, hu, w, x, hv, hw, hx⟩
      have hu' := lang_lit.mp hu
      have hx' := lang_lit.mp hx
      obtain ⟨ms, hvp, hrm⟩ := (fieldsMatches fs w).mp hw
      refine ⟨.obj ms, validB_object_iff.mpr ⟨ms, rfl, hvp⟩, ?_⟩
      rw [render_obj, hrm]
      subst hu' hx' hv hs
      simp
    · rintro ⟨j, hv, rfl⟩
      obtain ⟨ms, rfl, hvp⟩ := validB_object_iff.mp hv
      rw [render_obj]
      refine ⟨[lbrace], renderMembers ms ++ [rbrace], by simp, lang_lit.mpr rfl,
        renderMembers ms, [rbrace], rfl, ?_, lang_lit.mpr rfl⟩
      exact (fieldsMatches fs (renderMembers ms)).mpr ⟨ms, hvp, rfl⟩
  | union tg vs =>
    by_cases hAU : allUnit vs = true
    · rw [show compileParser (.union tg vs) =
          choiceList ((discList vs).map (fun d => lit (quoted d))) from by
            simp [compileParser, hAU],
        show compileSchema (.union tg vs) = .enum (discList vs) from by
          simp [compileSchema, hAU]]
      exact unitEnumCase
    · rw [show compileParser (.union tg vs) = variantsParser tg vs from by
          simp [compileParser, hAU],
        show compileSchema (.union tg vs) = .oneOf (variantsSchema tg vs) from by
          simp [compileSchema, hAU]]
      exact variantsMatches tg vs s

/-- The field-sequence parser of a record body accepts exactly the member
serializations valid for the field schemas. -/
theorem fieldsMatches (fs : Fields) (s : List Char) :
    Lang (fieldsParser fs) s ↔
      ∃ ms, validProps (fieldsSchema fs) ms = true ∧ renderMembers ms = s := by
  cases fs with
  | nil =>
    show s = [] ↔ _
    constructor
    · rintro rfl
      exact ⟨.nil, validProps_nil_iff.mpr rfl, by simp [renderMembers]⟩
    · rintro ⟨ms, hvp, rfl⟩
      obtain rfl := validProps_nil_iff.mp hvp
      simp [renderMembers]
  | cons n t rest =>
    show Lang (.cat (lit (keyLit n)) (.cat (compileParser t) (fieldsTail rest))) s ↔ _
    constructor
    · rintro ⟨u, v, hs, hu, w, x, hv, hw, hx⟩
      have hu' := lang_lit.mp hu
      obtain ⟨j, hj, hrj⟩ := (tyMatches t w).mp hw
      obtain ⟨ms, hvp, hrm⟩ := (fieldsTailMatches rest x).mp hx
      refine ⟨.cons n j ms, validProps_cons_iff.mpr ⟨j, ms, rfl, hj, hvp⟩, ?_⟩
      rw [renderMembers_cons, hrj, hrm]
      subst hu' hv hs
      rfl
    · rintro ⟨ms, hvp, rfl⟩
      obtain ⟨v, ms', rfl, hv, hvp'⟩ := validProps_cons_iff.mp hvp
      rw [renderMembers_cons]
      exact ⟨keyLit n, render v ++ renderMembersTail ms', rfl, lang_lit.mpr rfl,
        render v, renderMembersTail ms', rfl,
        (tyMatches t (render v)).mpr ⟨v, hv, rfl⟩,
        (fieldsTailMatches rest (renderMembersTail ms')).mpr ⟨ms', hvp', rfl⟩⟩

/-- The continuation parser after at least one record field: a separator
followed by the remaining fields. -/
theorem fieldsTailMatches (fs : Fields) (s : List Char) :
    Lang (fieldsTail fs) s ↔
      ∃ ms, validProps (fieldsSchema fs) ms = true ∧ renderMembersTail ms = s := by
  cases fs with
  | nil =>
    show s = [] ↔ _
    constructor
    · rintro rfl
      exact ⟨.nil, validProps_nil_iff.mpr rfl, by simp [renderMembersTail]⟩
    · rintro ⟨ms, hvp, rfl⟩
      obtain rfl := validProps_nil_iff.mp hvp
      simp [renderMembersTail]
  | cons n t rest =>
    show Lang (.cat (lit commaSpace)
      (.cat (lit (keyLit n)) (.cat (compileParser t) (fieldsTail rest)))) s ↔ _
    constructor
    · rintro ⟨u0, v0, hs, hu0, u, v, hv0, hu, w, x, hv, hw, hx⟩
      have hu0' := lang_lit.mp hu0
      have hu' := lang_lit.mp hu
      obtain ⟨j, hj, hrj⟩ := (tyMatches t w).mp hw
      obtain ⟨ms, hvp, hrm⟩ := (fieldsTailMatches rest x).mp hx
      refine ⟨.cons n j ms, validProps_cons_iff.mpr ⟨j, ms, rfl, hj, hvp⟩, ?_⟩
      rw [renderMembersTail_cons, hrj, hrm]
      subst hu0' hu' hv0 hv hs
      rfl
    · rintro ⟨ms, hvp, rfl⟩
      obtain ⟨v, ms', rfl, hv, hvp'⟩ := validProps_cons_iff.mp hvp
      rw [renderMembersTail_cons]
      exact ⟨commaSpace, keyLit n ++ (render v ++ renderMembersTail ms'), rfl,
        lang_lit.mpr rfl,
        keyLit n, render v ++ renderMembersTail ms', rfl, lang_lit.mpr rfl,
        render v, renderMembersTail ms', rfl,
        (tyMatches t (render v)).mpr ⟨v, hv, rfl⟩,
        (fieldsTailMatches rest (renderMembersTail ms')).mpr ⟨ms', hvp', rfl⟩⟩

/-- The choice over a union's variants accepts exactly the instances of some
variant alternative. -/
theorem variantsMatches (tg : Option (List Char × List Char)) (vs : Variants)
    (s : List Char) :
    Lang (variantsParser tg vs) s ↔
      ∃ j, validAlts (variantsSchema tg vs) j = true ∧ render j = s := by
  cases vs with
  | nil =>
    show False ↔ _
    constructor
    · intro h; exact absurd h not_false
    · rintro ⟨j, hv, rfl⟩
      simp [validAlts] at hv
  | cons d sh rest =>
    show (Lang (variantParser tg d sh) s ∨ Lang (variantsParser tg rest) s) ↔ _
    rw [shapeMatches tg d sh s, variantsMatches tg rest s]
    constructor
    · rintro (⟨j, hv, rfl⟩ | ⟨j, hv, rfl⟩)
      · exact ⟨j, by simp [validAlts, hv], rfl⟩
      · exact ⟨j, by simp [validAlts, hv], rfl⟩
    · rintro ⟨j, hv, rfl⟩
      have hv' : validB (variantSchema tg d sh) j = true ∨
          validAlts (variantsSchema tg rest) j = true := by
        have h2 : (validB (variantSchema tg d sh) j ||
            validAlts (variantsSchema tg rest) j) = true := hv
        exact Bool.or_eq_true .. |>.mp h2
      cases hv' with
      | inl h => exact Or.inl ⟨j, h, rfl⟩
      | inr h => exact Or.inr ⟨j, h, rfl⟩

/-- One variant's object parser accepts exactly the serializations valid for
that variant's object alternative. -/
theorem shapeMatches (tg : Option (List Char × List Char)) (d : List Char)
    (sh : VShape) (s : List Char) :
    Lang (variantParser tg d sh) s ↔
      ∃ j, validB (variantSchema tg d sh) j = true ∧ render j = s := by
  cases sh with
  | unit =>
    show Lang (lit (lbrace :: (keyLit (variantKeys tg).1 ++ quoted d ++ [rbrace]))) s ↔ _
    constructor
    · intro h
      obtain rfl := lang_lit.mp h
      refine ⟨.obj (.cons (variantKeys tg).1 (.str d) .nil), ?_, ?_⟩
      · exact validB_object_iff.mpr ⟨_, rfl, validProps_cons_iff.mpr
          ⟨.str d, .nil, rfl, validB_cst_iff.mpr rfl, validProps_nil_iff.mpr rfl⟩⟩
      · rw [render_obj, renderMembers_cons, render_str]
        simp [renderMembersTail, List.append_assoc]
    · rintro ⟨j, hv, rfl⟩
      obtain ⟨ms, rfl, hvp⟩ := validB_object_iff.mp hv
      obtain ⟨v, ms', rfl, hcst, hnil⟩ := validProps_cons_iff.mp hvp
      obtain rfl := validB_cst_iff.mp hcst
      obtain rfl := validProps_nil_iff.mp hnil
      rw [render_obj, renderMembers_cons, render_str]
      refine lang_lit.mpr ?_
      simp [renderMembersTail, List.append_assoc]
  | tuple t =>
    show Lang (.cat (lit (variantOpen tg d))
      (.cat (compileParser t) (lit [rbrace]))) s ↔ _
    constructor
    · rintro ⟨u, v, hs, hu, w, x, hv, hw, hx⟩
      have hu' := lang_lit.mp hu
      have hx' := lang_lit.mp hx
      obtain ⟨jp, hjp, hrj⟩ := (tyMatches t w).mp hw
      refine ⟨.obj (.cons (variantKeys tg).1 (.str d)
        (.cons (variantKeys tg).2 jp .nil)), ?_, ?_⟩
      · exact validB_object_iff.mpr ⟨_, rfl, validProps_cons_iff.mpr
          ⟨.str d, _, rfl, validB_cst_iff.mpr rfl, validProps_cons_iff.mpr
            ⟨jp, .nil, rfl, hjp, validProps_nil_iff.mpr rfl⟩⟩⟩
      · rw [render_obj, renderMembers_cons, render_str, renderMembersTail_cons, hrj]
        subst hu' hx' hv hs
        simp [variantOpen, renderMembersTail, List.append_assoc]
    · rintro ⟨j, hv, rfl⟩
      obtain ⟨ms, rfl, hvp⟩ := validB_object_iff.mp hv
      obtain ⟨v1, ms1, rfl, hcst, hvp1⟩ := validProps_cons_iff.mp hvp
      obtain rfl := validB_cst_iff.mp hcst
      obtain ⟨v2, ms2, rfl, hv2, hnil⟩ := validProps_cons_iff.mp hvp1
      obtain rfl := validProps_nil_iff.mp hnil
      refine ⟨variantOpen tg d, render v2 ++ [rbrace], ?_, lang_lit.mpr rfl,
        render v2, [rbrace], rfl,
        (tyMatches t (render v2)).mpr ⟨v2, hv2, rfl⟩, lang_lit.mpr rfl⟩
      rw [render_obj, renderMembers_cons, render_str, renderMembersTail_cons]
      simp [variantOpen, renderMembersTail, List.append_assoc]
  | record fs =>
    show Lang (.cat (lit (variantOpen tg d))
      (.cat (.cat (lit [lbrace]) (.cat (fieldsParser fs) (lit [rbrace])))
        (lit [rbrace]))) s ↔ _
    constructor
    · rintro ⟨u, v, hs, hu, w, x, hv, ⟨w1, w2, hw0, hw1, w3, w4, hw2, hw3, hw4⟩, hx⟩
      have hu' := lang_lit.mp hu
      have hx' := lang_lit.mp hx
      have hw1' := lang_lit.mp hw1
      have hw4' := lang_lit.mp hw4
      obtain ⟨ms, hvp, hrm⟩ := (fieldsMatches fs w3).mp hw3
      refine ⟨.obj (.cons (variantKeys tg).1 (.str d)
        (.cons (variantKeys tg).2 (.obj ms) .nil)), ?_, ?_⟩
      · exact validB_object_iff.mpr ⟨_, rfl, validProps_cons_iff.mpr
          ⟨.str d, _, rfl, validB_cst_iff.mpr rfl, validProps_cons_iff.mpr
            ⟨.obj ms, .nil, rfl, validB_object_iff.mpr ⟨ms, rfl, hvp⟩,
              validProps_nil_iff.mpr rfl⟩⟩⟩
      · rw [render_obj, renderMembers_cons, render_str, renderMembersTail_cons,
          render_obj, hrm]
        subst hu' hx' hw1' hw4' hw2 hw0 hv hs
        simp [variantOpen, renderMembersTail, List.append_assoc]
    · rintro ⟨j, hv, rfl⟩
      obtain ⟨ms, rfl, hvp⟩ := validB_object_iff.mp hv
      obtain ⟨v1, ms1, rfl, hcst, hvp1⟩ := validProps_cons_iff.mp hvp
      obtain rfl := validB_cst_iff.mp hcst
      obtain ⟨v2, ms2, rfl, hv2, hnil⟩ := validProps_cons_iff.mp hvp1
      obtain rfl := validProps_nil_iff.mp hnil
      obtain ⟨msf, rfl, hvpf⟩ := validB_object_iff.mp hv2
      refine ⟨variantOpen tg d,
        (lbrace :: (renderMembers msf ++ [rbrace])) ++ [rbrace], ?_,
        lang_lit.mpr rfl,
        lbrace :: (renderMembers msf ++ [rbrace]), [rbrace], rfl,
        ⟨[lbrace], renderMembers msf ++ [rbrace], by simp, lang_lit.mpr rfl,
          renderMembers msf, [rbrace], rfl,
          (fieldsMatches fs (renderMembers msf)).mpr ⟨msf, hvpf, rfl⟩,
          lang_lit.mpr rfl⟩,
        lang_lit.mpr rfl⟩
      rw [render_obj, renderMembers_cons, render_str, renderMembersTail_cons,
        render_obj]
      simp [variantOpen, renderMembersTail, List.append_assoc]

end

/-! ### Concrete type descriptions from the test suite -/

/-- Object members from a key-value list. -/
def membersOf : List (List Char × Json) → Members
  | [] => .nil
  | (k, v) :: rest => .cons k v (membersOf rest)

/-- Array elements from a value list. -/
def elemsOf : List Json → Elems
  | [] => .nil
  | j :: rest => .cons j (elemsOf rest)

/-- The three-variant payload-free union `{Red, Blue, Green}` of the
`unit_enum_parses` test. -/
def colorTy : Ty :=
  .union none (.cons "Red".toList .unit (.cons "Blue".toList .unit
    (.cons "Green".toList .unit .nil)))

/-- The unit-only union `First` / `Second` renamed `"second"` of the
`unit_enum_schema` test. -/
def unitEnumTy : Ty :=
  .union none (.cons "First".toList .unit (.cons "second".toList .unit .nil))

/-- The mixed (default-encoded) union of the `mixed_enum_schema` test:
`Person{name renamed "person": String, age: u32}`, `Animal` (unit),
`Turtle(String)` (tuple).  The unconstrained `u32` carries its machine range. -/
def mixedEnumTy : Ty :=
  .union none
    (.cons "Person".toList (.record (.cons "person".toList (.str none)
      (.cons "age".toList (.int 0 4294967295) .nil)))
    (.cons "Animal".toList .unit
    (.cons "Turtle".toList (.tuple (.str none)) .nil)))

/-- The pattern `cat|dog|bird` of the named enum's species field. -/
def catDogBird : G :=
  .alt (lit "cat".toList) (.alt (lit "dog".toList) (lit "bird".toList))

/-- The tagged union of the `NamedEnum` test type: `tag="ty"`,
`content="contents"`, variants renamed `person` (name: String, age in
Range 0..=100) and `animal` (name with Length 1..=20, species matching
`cat|dog|bird`). -/
def namedEnumTy : Ty :=
  .union (some ("ty".toList, "contents".toList))
    (.cons "person".toList (.record (.cons "name".toList (.str none)
      (.cons "age".toList (.int 0 100) .nil)))
    (.cons "animal".toList (.record (.cons "name".toList (.str (some (.len 1 20)))
      (.cons "species".toList (.str (some (.pattern catDogBird))) .nil)))
    .nil))

/-- A record with one `Range{0,100}` integer field `age`, the shape of the
named enum's constrained age field. -/
def ageRecordTy : Ty := .record (.cons "age".toList (.int 0 100) .nil)

/-- The schema document the `mixed_enum_schema` test asserts. -/
def mixedEnumDoc : Json :=
  .obj (membersOf [("oneOf".toList, .arr (elemsOf [
    .obj (membersOf [
      ("type".toList, .str "object".toList),
      ("properties".toList, .obj (membersOf [
        ("type".toList, .obj (membersOf [("const".toList, .str "Person".toList)])),
        ("data".toList, .obj (membersOf [
          ("type".toList, .str "object".toList),
          ("properties".toList, .obj (membersOf [
            ("person".toList, .obj (membersOf [("type".toList, .str "string".toList)])),
            ("age".toList, .obj (membersOf [("type".toList, .str "integer".toList)]))])),
          ("required".toList, .arr (elemsOf [.str "person".toList, .str "age".toList])),
          ("additionalProperties".toList, .bool false)]))])),
      ("required".toList, .arr (elemsOf [.str "type".toList, .str "data".toList])),
      ("additionalProperties".toList, .bool false)]),
    .obj (membersOf [
      ("type".toList, .str "object".toList),
      ("properties".toList, .obj (membersOf [
        ("type".toList, .obj (membersOf [("const".toList, .str "Animal".toList)]))])),
      ("required".toList, .arr (elemsOf [.str "type".toList])),
      ("additionalProperties".toList, .bool false)]),
    .obj (membersOf [
      ("type".toList, .str "object".toList),
      ("properties".toList, .obj (membersOf [
        ("type".toList, .obj (membersOf [("const".toList, .str "Turtle".toList)])),
        ("data".toList, .obj (membersOf [("type".toList, .str "string".toList)]))])),
      ("required".toList, .arr (elemsOf [.str "type".toList, .str "data".toList])),
      ("additionalProperties".toList, .bool false)])]))])

/-- The schema document the `unit_enum_schema` test asserts. -/
def unitEnumDoc : Json :=
  .obj (membersOf [("enum".toList,
    .arr (elemsOf [.str "First".toList, .str "second".toList]))])

/-- The schema document of the named (tagged) enum. -/
def namedEnumDoc : Json :=
  .obj (membersOf [("oneOf".toList, .arr (elemsOf [
    .obj (membersOf [
      ("type".toList, .str "object".toList),
      ("properties".toList, .obj (membersOf [
        ("ty".toList, .obj (membersOf [("const".toList, .str "person".toList)])),
        ("contents".toList, .obj (membersOf [
          ("type".toList, .str "object".toList),
          ("properties".toList, .obj (membersOf [
            ("name".toList, .obj (membersOf [("type".toList, .str "string".toList)])),
            ("age".toList, .obj (membersOf [("type".toList, .str "integer".toList)]))])),
          ("required".toList, .arr (elemsOf [.str "name".toList, .str "age".toList])),
          ("additionalProperties".toList, .bool false)]))])),
      ("required".toList, .arr (elemsOf [.str "ty".toList, .str "contents".toList])),
      ("additionalProperties".toList, .bool false)]),
    .obj (membersOf [
      ("type".toList, .str "object".toList),
      ("properties".toList, .obj (membersOf [
        ("ty".toList, .obj (membersOf [("const".toList, .str "animal".toList)])),
        ("contents".toList, .obj (membersOf [
          ("type".toList, .str "object".toList),
          ("properties".toList, .obj (membersOf [
            ("name".toList, .obj (membersOf [("type".toList, .str "string".toList)])),
            ("species".toList,
              .obj (membersOf [("type".toList, .str "string".toList)]))])),
          ("required".toList,
            .arr (elemsOf [.str "name".toList, .str "species".toList])),
          ("additionalProperties".toList, .bool false)]))])),
      ("required".toList, .arr (elemsOf [.str "ty".toList, .str "contents".toList])),
      ("additionalProperties".toList, .bool false)])]))])

/-- The tagged-union value `{"ty": "person", "contents": {"name": "Alice",
"age": 30}}` as a serialized instance. -/
def namedPersonJson : Json :=
  .obj (membersOf [
    ("ty".toList, .str "person".toList),
    ("contents".toList, .obj (membersOf [
      ("name".toList, .str "Alice".toList),
      ("age".toList, .num 30)]))])

/-- The serialized bytes of `namedPersonJson`. -/
def namedInput : String :=
  "\x7b\"ty\": \"person\", \"contents\": \x7b\"name\": \"Alice\", \"age\": 30\x7d\x7d"

/-! ### The claims -/

/-- Claim C1: for every well-formed TypeDescription, the language accepted by
the compiled parser is exactly the set of serialized values that are valid
instances of the schema compiled from the same TypeDescription: a byte string
drives the parser to Finished iff it is the canonical serialization of a valid
instance of the schema document. -/
theorem claim_c1_parser_schema_equivalence (t : Ty) (s : List Char)
    (_hwf : wfTy t = true) :
    accepts (compileParser t) s = true ↔
      ∃ j, validB (compileSchema t) j = true ∧ render j = s := by
  rw [accepts_iff_lang]
  exact tyMatches t s

/-- Witness for C1: the hypotheses hold at the payload-free union
`{Red, Blue, Green}` and the bytes `"Red"`. -/
theorem claim_c1_witness :
    wfTy colorTy = true ∧
      (accepts (compileParser colorTy) ("\"Red\"".toList) = true ↔
        ∃ j, validB (compileSchema colorTy) j = true ∧
          render j = "\"Red\"".toList) :=
  ⟨rfl, claim_c1_parser_schema_equivalence colorTy ("\"Red\"".toList) rfl⟩

/-- Claim C2: the mixed (default-encoded) union `Person{person: String, age:
u32} | Animal | Turtle(String)` compiles to exactly the three-alternative
oneOf document of the type/data encoding: Person with a const "Person" type
and a data object requiring person (string) and age (integer) with
additionalProperties false, Animal with only the const type property and
required ["type"], Turtle with the const type property and a bare string data
with required ["type", "data"]. -/
theorem claim_c2_mixed_union_schema :
    schemaToJson (compileSchema mixedEnumTy) = mixedEnumDoc := rfl

/-- Claim C3: every union in which every variant is a payload-free Unit
variant compiles to the flat enumeration of the serialized discriminants and
never to a oneOf of per-variant objects; at the `First` / `Second` renamed
"second" instance the document is exactly `{"enum": ["First", "second"]}`. -/
theorem claim_c3_unit_enum_flattening :
    (∀ (tg : Option (List Char × List Char)) (vs : Variants),
      allUnit vs = true →
        compileSchema (.union tg vs) = .enum (discList vs) ∧
        ∀ alts, compileSchema (.union tg vs) ≠ .oneOf alts) ∧
    compileSchema unitEnumTy = .enum ["First".toList, "second".toList] ∧
    schemaToJson (compileSchema unitEnumTy) = unitEnumDoc := by
  refine ⟨?_, rfl, rfl⟩
  intro tg vs h
  have he : compileSchema (.union tg vs) = .enum (discList vs) := by
    simp [compileSchema, h]
  refine ⟨he, ?_⟩
  intro alts hc
  rw [he] at hc
  exact SchemaNode.noConfusion hc

/-- Witness for C3: the payload-free hypothesis holds at the two-variant
unit-only union, where the flattening theorem yields the flat enumeration. -/
theorem claim_c3_witness :
    allUnit (Variants.cons "First".toList .unit
      (Variants.cons "second".toList .unit .nil)) = true ∧
    compileSchema (.union none (Variants.cons "First".toList .unit
      (Variants.cons "second".toList .unit .nil))) =
      .enum ["First".toList, "second".toList] :=
  ⟨rfl, (claim_c3_unit_enum_flattening.1 none
    (Variants.cons "First".toList .unit
      (Variants.cons "second".toList .unit .nil)) rfl).1⟩

/-- Claim C4: driving the compiled `{Red, Blue, Green}` parser from a fresh
state over the serialized bytes of the discriminant "Red" finishes, with the
consumed bytes being exactly the serialization of the valid Red instance. -/
theorem claim_c4_unit_enum_parses_red :
    parse (createState (compileParser colorTy)) [] ("\"Red\"".toList) =
      .finished ("\"Red\"".toList) [] ∧
    render (.str "Red".toList) = "\"Red\"".toList ∧
    validB (compileSchema colorTy) (.str "Red".toList) = true :=
  ⟨rfl, rfl, rfl⟩

set_option maxRecDepth 40000 in
/-- Claim C5: against the tagged union with tag "ty" and content "contents",
the string `{"ty": "person", "contents": {"name": "Alice", "age": 30}}` parses
to a finished value equal to the constructed person variant (its canonical
serialization and schema validity are exhibited), and the compiled schema's
person alternative is the object with a const "person" ty property and a
contents object requiring name (string) and age (integer) with
additionalProperties false. -/
theorem claim_c5_tagged_union_roundtrip :
    parse (createState (compileParser namedEnumTy)) [] namedInput.toList =
      .finished namedInput.toList [] ∧
    render namedPersonJson = namedInput.toList ∧
    validB (compileSchema namedEnumTy) namedPersonJson = true ∧
    schemaToJson (compileSchema namedEnumTy) = namedEnumDoc :=
  ⟨rfl, rfl, rfl, rfl⟩

/-- Claim C6: for every compiled parser and every valid serialized value,
feeding the bytes through the drive loop one byte at a time from a fresh
state yields exactly the same outcome — in particular the same Finished
result — as feeding the entire buffer in a single call. -/
theorem claim_c6_chunking_invariance (t : Ty) (s : List Char)
    (h : accepts (compileParser t) s = true) :
    driveBytes (createState (compileParser t)) [] s =
      parse (createState (compileParser t)) [] s := by
  apply drive_eq_parse
  rw [accepts_eq_nullable_derivs] at h
  exact h

/-- Witness for C6 at the `{Red, Blue, Green}` parser and the bytes `"Red"`. -/
theorem claim_c6_witness :
    accepts (compileParser colorTy) ("\"Red\"".toList) = true ∧
      driveBytes (createState (compileParser colorTy)) [] ("\"Red\"".toList) =
        parse (createState (compileParser colorTy)) [] ("\"Red\"".toList) :=
  ⟨rfl, claim_c6_chunking_invariance colorTy ("\"Red\"".toList) rfl⟩

/-- Claim C7: for an integer field constrained to Range{0,100}, driving the
parser over the digit bytes of 101 is rejected exactly at the third digit,
before any closing delimiter of the number: after `{"age": 10` the session is
still continuing, and the next byte `1` makes it Invalid. -/
theorem claim_c7_early_range_rejection :
    (parse (createState (compileParser ageRecordTy)) []
        ("\x7b\"age\": 10".toList)).isCont = true ∧
    parse (createState (compileParser ageRecordTy)) []
        ("\x7b\"age\": 101".toList) = .invalid :=
  ⟨rfl, rfl⟩

/-- Claim C10: a complete serialized value followed by trailing bytes — the
quoted discriminant `"Red"` followed by a space, against `{Red, Blue,
Green}` — still parses to a finished Red result, with the trailing byte left
unconsumed rather than rejecting the session. -/
theorem claim_c10_trailing_bytes_finish :
    parse (createState (compileParser colorTy)) [] ("\"Red\" ".toList) =
      .finished ("\"Red\"".toList) [' '] ∧
    render (.str "Red".toList) = "\"Red\"".toList ∧
    validB (compileSchema colorTy) (.str "Red".toList) = true :=
  ⟨rfl, rfl, rfl⟩

/-! ### The remote OpenAI-compatible model wrapper

Embedded from `src/interfaces/language-model/src/remote/open_ai.rs`.  A
`panic!` is modelled as `Except.error` carrying the panic message; the
`Option::unwrap` in `build` is modelled by returning an `Option` that is
`none` exactly when the unwrap would panic. -/

/-- A tokenizer value (opaque at this boundary). -/
structure Tokenizer where

/-- The relevant state of `async_openai::config::OpenAIConfig`. -/
structure OpenAIConfig where
  apiKey : Option String := none
  apiBase : Option String := none
  orgId : Option String := none

/-- `OpenAIConfig::with_api_key`. -/
def OpenAIConfig.with_api_key (c : OpenAIConfig) (k : String) : OpenAIConfig :=
  { c with apiKey := some k }

/-- `OpenAIConfig::with_api_base`. -/
def OpenAIConfig.with_api_base (c : OpenAIConfig) (b : String) : OpenAIConfig :=
  { c with apiBase := some b }

/-- `OpenAIConfig::with_org_id`. -/
def OpenAIConfig.with_org_id (c : OpenAIConfig) (o : String) : OpenAIConfig :=
  { c with orgId := some o }

/-- `Client<OpenAIConfig>`. -/
structure Client where
  config : OpenAIConfig

/-- `Client::with_config`. -/
def Client.with_config (c : OpenAIConfig) : Client := ⟨c⟩

/-- `RemoteOpenAICompatibleModel`: a model that uses OpenAI's API. -/
structure RemoteOpenAICompatibleModel where
  model : String
  client : Client

/-- `RemoteOpenAICompatibleModelBuilder<const WITH_NAME: bool>`. -/
structure RemoteOpenAICompatibleModelBuilder (WITH_NAME : Bool) where
  model : Option String
  config : OpenAIConfig

namespace RemoteOpenAICompatibleModelBuilder

/-- `RemoteOpenAICompatibleModelBuilder::<false>::new`. -/
def new : RemoteOpenAICompatibleModelBuilder false :=
  ⟨none, {}⟩

/-- `with_model`: the only constructor of the `WITH_NAME = true` type state,
storing `Some(model)`. -/
def with_model (b : RemoteOpenAICompatibleModelBuilder false) (m : String) :
    RemoteOpenAICompatibleModelBuilder true :=
  ⟨some m, b.config⟩

/-- `with_api_key`, available in either type state; leaves `model` unchanged. -/
def with_api_key {W : Bool} (b : RemoteOpenAICompatibleModelBuilder W)
    (k : String) : RemoteOpenAICompatibleModelBuilder W :=
  { b with config := b.config.with_api_key k }

/-- `with_base_url`, available in either type state; leaves `model` unchanged. -/
def with_base_url {W : Bool} (b : RemoteOpenAICompatibleModelBuilder W)
    (u : String) : RemoteOpenAICompatibleModelBuilder W :=
  { b with config := b.config.with_api_base u }

/-- `with_organization_id`, available in either type state; leaves `model`
unchanged. -/
def with_organization_id {W : Bool} (b : RemoteOpenAICompatibleModelBuilder W)
    (o : String) : RemoteOpenAICompatibleModelBuilder W :=
  { b with config := b.config.with_org_id o }

/-- `RemoteOpenAICompatibleModelBuilder::<true>::build`: unwraps the stored
model name; `none` models the unwrap panic. -/
def build (b : RemoteOpenAICompatibleModelBuilder true) :
    Option RemoteOpenAICompatibleModel :=
  b.model.map fun m => ⟨m, Client.with_config b.config⟩

end RemoteOpenAICompatibleModelBuilder

/-- The derived `Default` impl (`#[derive(Debug, Default)]`) on the builder:
for either value of the `WITH_NAME` const parameter it defaults every field,
in particular storing `model = None`. -/
def RemoteOpenAICompatibleModelBuilder.defaulted (W : Bool) :
    RemoteOpenAICompatibleModelBuilder W :=
  ⟨none, {}⟩

/-- `Model::tokenizer` for `RemoteOpenAICompatibleModel`: unconditionally
`panic!("OpenAI does not expose tokenization")`. -/
def RemoteOpenAICompatibleModel.tokenizer (_ : RemoteOpenAICompatibleModel) :
    Except String Tokenizer :=
  .error "OpenAI does not expose tokenization"

/-- `Gpt3_5`, generated by `openai_completion_model!` at
`"gpt-3.5-turbo-instruct"`. -/
structure Gpt3_5 where
  inner : RemoteOpenAICompatibleModel

/-- `Gpt3_5Builder`. -/
structure Gpt3_5Builder where
  inner : RemoteOpenAICompatibleModelBuilder true

/-- `Gpt3_5Builder::new`. -/
def Gpt3_5Builder.new : Gpt3_5Builder :=
  ⟨RemoteOpenAICompatibleModelBuilder.new.with_model "gpt-3.5-turbo-instruct"⟩

/-- The derived `Default` impl (`#[derive(Debug, Default)]`) on
`Gpt3_5Builder`: its `inner` is the defaulted `WITH_NAME = true` builder. -/
def Gpt3_5Builder.defaulted : Gpt3_5Builder :=
  ⟨RemoteOpenAICompatibleModelBuilder.defaulted true⟩

/-- `Gpt3_5Builder::build`. -/
def Gpt3_5Builder.build (b : Gpt3_5Builder) : Option Gpt3_5 :=
  b.inner.build.map Gpt3_5.mk

/-- `Model::tokenizer` for `Gpt3_5`, generated by the macro:
unconditionally `panic!("OpenAI does not expose tokenization")`. -/
def Gpt3_5.tokenizer (_ : Gpt3_5) : Except String Tokenizer :=
  .error "OpenAI does not expose tokenization"

/-- The builders in `WITH_NAME` state `b` reachable through the explicit
builder methods: `new` starts at `false`, `with_model` moves to `true`, and
the three config setters stay in place.  The derived `Default::default()` is
deliberately not among these constructors: it enters the `true` state with no
stored model, which is exactly the public escape hatch that defeats the
type-state invariant. -/
inductive Reached : (b : Bool) → RemoteOpenAICompatibleModelBuilder b → Prop where
  | new : Reached false .new
  | withModel (s : RemoteOpenAICompatibleModelBuilder false) (m : String) :
      Reached false s → Reached true (s.with_model m)
  | apiKey {b : Bool} (s : RemoteOpenAICompatibleModelBuilder b) (k : String) :
      Reached b s → Reached b (s.with_api_key k)
  | baseUrl {b : Bool} (s : RemoteOpenAICompatibleModelBuilder b) (u : String) :
      Reached b s → Reached b (s.with_base_url u)
  | orgId {b : Bool} (s : RemoteOpenAICompatibleModelBuilder b) (o : String) :
      Reached b s → Reached b (s.with_organization_id o)

/-- Claim C8: `tokenizer()` always panics with the message "OpenAI does not
expose tokenization" — on every `RemoteOpenAICompatibleModel` and on every
model defined via `openai_completion_model!` (`Gpt3_5`) — and never returns a
`Tokenizer`. -/
theorem claim_c8_tokenizer_panics :
    (∀ m : RemoteOpenAICompatibleModel,
      m.tokenizer = .error "OpenAI does not expose tokenization" ∧
        ∀ t : Tokenizer, m.tokenizer ≠ .ok t) ∧
    (∀ g : Gpt3_5,
      g.tokenizer = .error "OpenAI does not expose tokenization" ∧
        ∀ t : Tokenizer, g.tokenizer ≠ .ok t) := by
  refine ⟨fun m => ⟨rfl, fun t h => ?_⟩, fun g => ⟨rfl, fun t h => ?_⟩⟩
  · exact Except.noConfusion h
  · exact Except.noConfusion h

/-- Every builder in the `WITH_NAME = true` type state reachable through the
public API has `model = Some(_)`. -/
theorem reached_model_isSome : ∀ {b : Bool}
    (s : RemoteOpenAICompatibleModelBuilder b), Reached b s →
    b = true → s.model.isSome = true := by
  intro b s h
  induction h with
  | new => intro hb; exact absurd hb (by simp)
  | withModel s m _ _ => intro _; rfl
  | apiKey s k _ ih => intro hb; exact ih hb
  | baseUrl s u _ ih => intro hb; exact ih hb
  | orgId s o _ ih => intro hb; exact ih hb

/-- Counterexample to C9 as stated: `#[derive(Debug, Default)]` on
`RemoteOpenAICompatibleModelBuilder<WITH_NAME>` generates a public
`Default::default()` for every `WITH_NAME`, so a `WITH_NAME = true` builder
with `model = None` is obtainable without ever calling `with_model`, and
`build()` on it panics on the `unwrap` (modelled as returning no model); the
macro-generated `Gpt3_5Builder::default()` contains that defaulted inner
builder and its `build()` hits the same panic. -/
theorem claim_c9_counterexample :
    (RemoteOpenAICompatibleModelBuilder.defaulted true).model = none ∧
    (RemoteOpenAICompatibleModelBuilder.defaulted true).build = none ∧
    Gpt3_5Builder.defaulted.build = none :=
  ⟨rfl, rfl, rfl⟩

/-- Claim C9 as amended: every `RemoteOpenAICompatibleModelBuilder<true>`
reached through the explicit builder methods has `model = Some(_)` —
`with_model` is the only method transition into the `WITH_NAME = true` type
state and stores `Some`, while `with_api_key`, `with_base_url` and
`with_organization_id` preserve the model field — so the `unwrap` in `build`
never panics on such builders.  The derived `Default::default()` is the sole
public exception. -/
theorem claim_c9_build_never_panics
    (s : RemoteOpenAICompatibleModelBuilder true) (h : Reached true s) :
    s.model.isSome = true ∧ s.build.isSome = true := by
  have hm := reached_model_isSome s h rfl
  refine ⟨hm, ?_⟩
  show (s.model.map fun m =>
    RemoteOpenAICompatibleModel.mk m (Client.with_config s.config)).isSome = true
  cases hs : s.model with
  | none => rw [hs] at hm; exact absurd hm (by simp)
  | some m => simp

/-- Witness for C9: a builder reached by `new`, `with_api_key`, then
`with_model` has a stored model and builds successfully. -/
theorem claim_c9_witness :
    Reached true ((RemoteOpenAICompatibleModelBuilder.new.with_api_key
        "key").with_model "gpt-4") ∧
      ((RemoteOpenAICompatibleModelBuilder.new.with_api_key
        "key").with_model "gpt-4").model.isSome = true ∧
      ((RemoteOpenAICompatibleModelBuilder.new.with_api_key
        "key").with_model "gpt-4").build.isSome = true := by
  have hr : Reached true ((RemoteOpenAICompatibleModelBuilder.new.with_api_key
      "key").with_model "gpt-4") :=
    Reached.withModel _ _ (Reached.apiKey _ _ Reached.new)
  have := claim_c9_build_never_panics _ hr
  exact ⟨hr, this.1, this.2⟩

end Floneum
